import Mathlib

/-!
# Verification of `src/core/file_walker.py` (Legacy-Code-Archaeologist)

A shallow embedding of the repository's single component, `FileWalker`:
a recursive directory walker that yields file paths matching a configurable
set of extensions while pruning well-known non-source directories.

The embedding models:
* the POSIX path primitives the source calls (`os.path.abspath`,
  `os.path.join`, `os.path.basename`) as pure string functions over a
  caller-supplied current working directory;
* the filesystem as a finite tree `DirTree` of file names and named
  subdirectories (one node = one `os.walk` listing: its non-directory
  entries and its subdirectories, in listing order);
* `FileWalker.__init__` and `FileWalker.walk` translated line by line.
-/

namespace FileWalkerSpec

/-- Python's `str.lower()`, character by character.  This models the ASCII
case mapping, on which Python's (Unicode) `lower` agrees. -/
def pyLower (s : String) : String := ⟨s.data.map Char.toLower⟩

/-- Python's `str.endswith(suffix)`: the character sequence of `suffix` is a
suffix of the character sequence of `s`. -/
def pyEndsWith (s suffix : String) : Bool := suffix.data.isSuffixOf s.data

/-- Splitting a character list at every `'/'`, keeping empty pieces, as
Python's `str.split('/')` does. -/
def splitSlashAux : List Char → List Char → List (List Char)
  | [], acc => [acc.reverse]
  | c :: cs, acc =>
    if c = '/' then acc.reverse :: splitSlashAux cs [] else splitSlashAux cs (c :: acc)

/-- Python's `s.split('/')`. -/
def splitSlash (s : String) : List String :=
  (splitSlashAux s.data []).map fun cs => ⟨cs⟩

/-- Python's `'/'.join(parts)`. -/
def intercalateSlash : List String → String
  | [] => ""
  | [s] => s
  | s :: rest => s ++ "/" ++ intercalateSlash rest

/-- `os.path.isabs` on POSIX: the path starts with a slash. -/
def isabs (s : String) : Bool := s.data.head? == some '/'

/-- `os.path.join a b` on POSIX (two-argument case): if `b` is absolute the
result is `b`; else `a ++ b`, inserting a `/` unless `a` is empty or already
ends with one. -/
def joinPath (a b : String) : String :=
  if isabs b then b
  else if a = "" || a.data.getLast? == some '/' then a ++ b
  else a ++ "/" ++ b

/-- One step of `posixpath.normpath`'s component scan: skip empty and `.`
components, append a normal component, and let `..` pop the previous
component unless the accumulator is a relative prefix of `..`s. -/
def normStep (initialSlashes : Bool) (acc : List String) (comp : String) : List String :=
  if comp = "" || comp = "." then acc
  else if comp != ".." || (!initialSlashes && acc.isEmpty) || acc.getLast? == some ".." then
    acc ++ [comp]
  else if !acc.isEmpty then acc.dropLast
  else acc

/-- `posixpath.normpath`: collapse `//`, `.` and `..` components.  Exactly
two leading slashes are preserved (POSIX allows them special meaning). -/
def normpath (path : String) : String :=
  if path = "" then "."
  else
    let initialSlashes : Bool := isabs path
    let doubleSlash : Bool :=
      initialSlashes && path.data.take 2 == ['/', '/'] && path.data.take 3 != ['/', '/', '/']
    let comps := splitSlash path
    let newComps := comps.foldl (normStep initialSlashes) []
    let joined := intercalateSlash newComps
    let res := if initialSlashes then (if doubleSlash then "//" else "/") ++ joined else joined
    if res = "" then "." else res

/-- `os.path.abspath` on POSIX: join with the current working directory when
the path is relative, then normalize.  The cwd, which CPython reads with
`os.getcwd()`, is an explicit argument of the model. -/
def abspath (cwd path : String) : String :=
  normpath (if isabs path then path else joinPath cwd path)

/-- `os.path.basename` on POSIX: everything after the last slash. -/
def basename (p : String) : String := (splitSlash p).getLastD ""

/-- A directory's listing: its non-directory entries (`files`) and its named
subdirectories (`subdirs`), each in the order the filesystem reports them.
This is the data `os.walk` sees at one node of the tree. -/
inductive DirTree where
  | node (files : List String) (subdirs : List (String × DirTree))
deriving Repr

/-- The walker object: the three attributes set by `FileWalker.__init__`. -/
structure FileWalker where
  root_dir : String
  extensions : List String
  ignore_dirs : List String
deriving Repr, DecidableEq

/-- The hardcoded ignore set
`{'.git', '__pycache__', 'node_modules', 'venv', 'env', 'dist', 'build'}`. -/
def ignoreDirsSet : List String :=
  [".git", "__pycache__", "node_modules", "venv", "env", "dist", "build"]

/-- `FileWalker.__init__(root_dir, extensions=None)`:
`self.root_dir = os.path.abspath(root_dir)`;
`self.extensions = [e.lower() for e in extensions] if extensions else ['.py']`
(`None` and the empty list are both falsy in Python);
`self.ignore_dirs = {'.git', ...}`. -/
def FileWalker.init (cwd root_dir : String) (extensions : Option (List String)) : FileWalker :=
  { root_dir := abspath cwd root_dir
    extensions :=
      match extensions with
      | some es => if es.isEmpty then [".py"] else es.map pyLower
      | none => [".py"]
    ignore_dirs := ignoreDirsSet }

/-- The per-file test on line 17 of the source:
`any(file.lower().endswith(ext) for ext in self.extensions)`. -/
def matchesExtension (exts : List String) (file : String) : Bool :=
  exts.any fun ext => pyEndsWith (pyLower file) ext

/-- The body of `FileWalker.walk` for the `os.walk(root, topdown=True)`
traversal rooted at `root`: at each node the subdirectory list is first
pruned in place (`dirs[:] = [d for d in dirs if d not in self.ignore_dirs]`),
then every file passing the extension test is yielded as
`os.path.join(root, file)`, and `os.walk` then recurses (top-down) into each
surviving subdirectory under path `os.path.join(root, d)`. -/
def walkTree (exts ignore : List String) (root : String) : DirTree → List String
  | .node files subdirs =>
    let pruned := subdirs.filter fun d => !ignore.contains d.1
    ((files.filter (matchesExtension exts)).map fun file => joinPath root file)
      ++ pruned.attach.flatMap fun d =>
        walkTree exts ignore (joinPath root d.1.1) d.1.2
termination_by t => sizeOf t
decreasing_by
  have hmem := List.mem_of_mem_filter d.2
  have h1 := List.sizeOf_lt_of_mem hmem
  obtain ⟨⟨n, t⟩, hd⟩ := d
  simp only [DirTree.node.sizeOf_spec, Prod.mk.sizeOf_spec] at *
  omega

/-- `FileWalker.walk(self)`: the full traversal starting at the resolved
root (the `print` diagnostic on line 11 is observational and not modelled). -/
def FileWalker.walk (fw : FileWalker) (tree : DirTree) : List String :=
  walkTree fw.extensions fw.ignore_dirs fw.root_dir tree

/-- State-passing form of the `walk` method: the source never assigns any
`self` attribute (it only reads them and mutates `os.walk`'s local `dirs`
list), so the object state after the call is the state before it. -/
def FileWalker.walkWithSelf (fw : FileWalker) (tree : DirTree) : List String × FileWalker :=
  (walkTree fw.extensions fw.ignore_dirs fw.root_dir tree, fw)

/-! ## Spec-side characterisation of the emitted set

The spec (§8) describes the emitted set extensionally: "the set of
non-directory entries in T whose lowercased name ends with some member of E,
excluding any entry residing (directly or transitively) under a directory
named `.git`, `__pycache__`, `node_modules`, `venv`, `env`, `dist`, or
`build`".  `allFiles` enumerates every non-directory entry of the tree
together with the chain of directory basenames strictly below the root on
the way to it, and `specEmittedSet` filters that enumeration by the spec's
two conditions. -/

/-- Every non-directory entry of the tree, as a pair of (the directory
basenames on the path from the root down to the entry, exclusive of the
root itself) and (the entry's filename). -/
def allFiles : DirTree → List (List String × String)
  | .node files subdirs =>
    (files.map fun f => (([] : List String), f))
      ++ subdirs.attach.flatMap fun d =>
        (allFiles d.1.2).map fun p => (d.1.1 :: p.1, p.2)
termination_by t => sizeOf t
decreasing_by
  have h1 := List.sizeOf_lt_of_mem d.2
  obtain ⟨⟨n, t⟩, hd⟩ := d
  simp only [DirTree.node.sizeOf_spec, Prod.mk.sizeOf_spec] at *
  omega

/-- The absolute path of an entry reached from `root` through the directory
chain `dirs`: each path segment is appended with the path-join primitive. -/
def pathOfEntry (root : String) (dirs : List String) (file : String) : String :=
  joinPath (dirs.foldl joinPath root) file

/-- Modelled from the spec's words (§8): the set of entries of the tree whose
lowercased name ends with some member of `exts`, excluding every entry lying
under a directory whose basename is in `ignore`. -/
def specEmittedSet (exts ignore : List String) (root : String) (t : DirTree) : List String :=
  (allFiles t).filterMap fun p =>
    if (exts.any fun e => pyEndsWith (pyLower p.2) e) && !(p.1.any fun d => ignore.contains d) then
      some (pathOfEntry root p.1 p.2)
    else none

/-! ## Basic lemmas -/

/-- Strong induction over the directory tree: to prove a property at a node
it suffices to have it for every subdirectory's tree. -/
theorem DirTree.strongInduction {motive : DirTree → Prop}
    (h : ∀ files subdirs, (∀ d ∈ subdirs, motive d.2) → motive (.node files subdirs)) :
    ∀ t, motive t
  | .node files subdirs =>
    h files subdirs fun d hd => DirTree.strongInduction h d.2
termination_by t => sizeOf t
decreasing_by
  have h1 := List.sizeOf_lt_of_mem hd
  obtain ⟨n, t⟩ := d
  simp only [DirTree.node.sizeOf_spec, Prod.mk.sizeOf_spec] at *
  omega

/-- Discharging the `attach` used for the termination argument. -/
theorem attach_flatMap_eq {α β : Type} (l : List α) (f : α → List β) :
    (l.attach.flatMap fun x => f x.1) = l.flatMap f := by
  simp

/-- Unfolding equation for `walkTree` without the termination bookkeeping. -/
theorem walkTree_node (exts ignore : List String) (root : String)
    (files : List String) (subdirs : List (String × DirTree)) :
    walkTree exts ignore root (.node files subdirs) =
      ((files.filter (matchesExtension exts)).map fun file => joinPath root file)
        ++ (subdirs.filter fun d => !ignore.contains d.1).flatMap
            fun d => walkTree exts ignore (joinPath root d.1) d.2 := by
  rw [walkTree]
  congr 1
  exact attach_flatMap_eq (subdirs.filter fun d => !ignore.contains d.1)
    (fun d => walkTree exts ignore (joinPath root d.1) d.2)

/-- Unfolding equation for `allFiles` without the termination bookkeeping. -/
theorem allFiles_node (files : List String) (subdirs : List (String × DirTree)) :
    allFiles (.node files subdirs) =
      (files.map fun f => (([] : List String), f))
        ++ subdirs.flatMap fun d => (allFiles d.2).map fun p => (d.1 :: p.1, p.2) := by
  rw [allFiles]
  congr 1
  exact attach_flatMap_eq subdirs
    (fun d => (allFiles d.2).map fun p => (d.1 :: p.1, p.2))

/-- Mapping over a filtered list is a `filterMap` by the guarded function. -/
theorem map_filter_eq_filterMap {α β : Type} (p : α → Bool) (f : α → β) (l : List α) :
    (l.filter p).map f = l.filterMap fun a => if p a then some (f a) else none := by
  induction l with
  | nil => rfl
  | cons a l ih => by_cases h : p a <;> simp [h, ih]

/-- Flat-mapping over a filtered list is flat-mapping the guarded function. -/
theorem flatMap_filter_eq {α β : Type} (p : α → Bool) (f : α → List β) (l : List α) :
    (l.filter p).flatMap f = l.flatMap fun a => if p a then f a else [] := by
  induction l with
  | nil => rfl
  | cons a l ih => by_cases h : p a <;> simp [h, ih]

/-- The spec-side set satisfies the same node-level recurrence as the
walker: emit the matching files of the node, drop ignored subdirectories
whole, and recurse into the others. -/
theorem specEmitted_node (exts ignore : List String) (root : String)
    (files : List String) (subdirs : List (String × DirTree)) :
    specEmittedSet exts ignore root (.node files subdirs) =
      ((files.filter fun f => exts.any fun e => pyEndsWith (pyLower f) e).map fun f => joinPath root f)
        ++ subdirs.flatMap fun d =>
          if ignore.contains d.1 then []
          else specEmittedSet exts ignore (joinPath root d.1) d.2 := by
  unfold specEmittedSet
  rw [allFiles_node, List.filterMap_append, List.filterMap_map, List.filterMap_flatMap]
  congr 1
  · rw [map_filter_eq_filterMap]
    apply List.filterMap_congr
    intro f _
    simp [pathOfEntry]
  · apply List.flatMap_congr
    intro d _
    rw [List.filterMap_map]
    by_cases hc : ignore.contains d.1 = true
    · rw [if_pos hc]
      have hc' : d.1 ∈ ignore := by simpa using hc
      simp [Function.comp_def, hc']
    · rw [if_neg hc]
      have hc' : d.1 ∉ ignore := by simpa using hc
      apply List.filterMap_congr
      intro p _
      simp [Function.comp_def, pathOfEntry, hc']

/-- The traversal emits exactly the spec-side set, node for node. -/
theorem walkTree_eq_specEmittedSet (exts ignore : List String) (t : DirTree) :
    ∀ root, walkTree exts ignore root t = specEmittedSet exts ignore root t := by
  induction t using DirTree.strongInduction with
  | _ files subdirs ih =>
    intro root
    rw [walkTree_node, specEmitted_node, flatMap_filter_eq]
    congr 1
    apply List.flatMap_congr
    intro d hd
    cases hcb : ignore.contains d.1
    · simp [ih d hd]
    · simp

/-! ## Listing-order independence

`os.walk` reports each directory's entries in whatever order the filesystem
returns them.  `SameListing` relates two trees that present the same entries,
possibly in different sibling orders, at every node. -/

mutual
/-- Two directory trees that agree up to the (non-deterministic) order in
which the filesystem lists each directory's entries: at every node the files
are a permutation and the subdirectory listing is, up to reordering, made of
the same names carrying order-equivalent subtrees. -/
inductive SameListing : DirTree → DirTree → Prop where
  | node {files₁ files₂ : List String} {subdirs₁ mid subdirs₂ : List (String × DirTree)} :
      files₁.Perm files₂ →
      SameListingList subdirs₁ mid →
      mid.Perm subdirs₂ →
      SameListing (.node files₁ subdirs₁) (.node files₂ subdirs₂)

/-- Pointwise `SameListing` of two subdirectory listings, name for name. -/
inductive SameListingList : List (String × DirTree) → List (String × DirTree) → Prop where
  | nil : SameListingList [] []
  | cons {n : String} {t₁ t₂ : DirTree} {l₁ l₂ : List (String × DirTree)} :
      SameListing t₁ t₂ → SameListingList l₁ l₂ →
      SameListingList ((n, t₁) :: l₁) ((n, t₂) :: l₂)
end

/-- Pointwise reflexivity of `SameListingList` from that of the subtrees. -/
theorem SameListingList.refl_of (l : List (String × DirTree))
    (h : ∀ d ∈ l, SameListing d.2 d.2) : SameListingList l l := by
  induction l with
  | nil => exact .nil
  | cons d rest ih =>
    obtain ⟨n, t⟩ := d
    exact .cons (h _ (List.mem_cons_self _ _))
      (ih fun d hd => h d (List.mem_cons_of_mem _ hd))

/-- The relation is reflexive: an unchanged tree lists the same entries. -/
theorem SameListing.refl : ∀ t, SameListing t t := by
  refine DirTree.strongInduction fun files subdirs ih => ?_
  exact .node (List.Perm.refl _) (SameListingList.refl_of subdirs ih) (List.Perm.refl _)

/-- Re-walking a tree whose listings changed only in order permutes the
emitted path sequence. -/
theorem walkTree_perm_of_sameListing (exts ignore : List String) (t₁ : DirTree) :
    ∀ root t₂, SameListing t₁ t₂ →
      (walkTree exts ignore root t₁).Perm (walkTree exts ignore root t₂) := by
  induction t₁ using DirTree.strongInduction with
  | _ files subdirs ih =>
    intro root t₂ h
    cases h with
    | node hf hmid hperm =>
      rw [walkTree_node, walkTree_node, flatMap_filter_eq, flatMap_filter_eq]
      have hswap : ∀ (l : List (String × DirTree)),
          (l.flatMap fun a => if (!ignore.contains a.1) = true then
              walkTree exts ignore (joinPath root a.1) a.2 else []) =
            l.flatMap fun d => if ignore.contains d.1 = true then []
              else walkTree exts ignore (joinPath root d.1) d.2 := by
        intro l
        apply List.flatMap_congr
        intro a _
        cases ignore.contains a.1 <;> simp
      rw [hswap, hswap]
      refine ((hf.filter _).map _).append ?_
      refine List.Perm.trans ?_ (hperm.flatMap_right _)
      have key : ∀ l₁ l₂, SameListingList l₁ l₂ →
          (∀ d ∈ l₁, ∀ t₂, SameListing d.2 t₂ → ∀ r,
            (walkTree exts ignore r d.2).Perm (walkTree exts ignore r t₂)) →
          (l₁.flatMap fun d => if ignore.contains d.1 then []
              else walkTree exts ignore (joinPath root d.1) d.2).Perm
            (l₂.flatMap fun d => if ignore.contains d.1 then []
              else walkTree exts ignore (joinPath root d.1) d.2) := by
        intro l₁
        induction l₁ with
        | nil =>
          intro l₂ hsl _
          cases hsl
          simp
        | cons d rest ihrest =>
          intro l₂ hsl hih
          obtain ⟨n, t⟩ := d
          cases hsl with
          | cons hst htail =>
            simp only [List.flatMap_cons]
            refine List.Perm.append ?_ (ihrest _ htail fun d hd t₂ hs r =>
              hih d (List.mem_cons_of_mem _ hd) t₂ hs r)
            cases hcb : ignore.contains n
            · simpa using hih _ (List.mem_cons_self _ _) _ hst _
            · simp
      exact key _ _ hmid fun d hd t₂ hs r => ih d hd r t₂ hs

/-! ## Absoluteness of the resolved root -/

/-- Appending to a string that starts with a slash keeps it absolute. -/
theorem isabs_append {pre : String} (s : String) (hpre : isabs pre = true) :
    isabs (pre ++ s) = true := by
  unfold isabs at *
  rw [String.data_append]
  cases hd : pre.data with
  | nil => rw [hd] at hpre; simp at hpre
  | cons c cs =>
    rw [hd] at hpre
    simp only [List.head?_cons, beq_iff_eq, Option.some.injEq] at hpre
    simp [hpre]

/-- A string that starts with a slash is nonempty. -/
theorem ne_empty_of_isabs {s : String} (h : isabs s = true) : s ≠ "" := by
  intro he
  rw [he] at h
  simp [isabs] at h

/-- An absolute prefix survives the final empty-result check of `normpath`. -/
theorem isabs_ite_empty (pre s : String) (hpre : isabs pre = true) :
    isabs (if pre ++ s = "" then "." else pre ++ s) = true := by
  rw [if_neg (ne_empty_of_isabs (isabs_append s hpre))]
  exact isabs_append s hpre

/-- `normpath` keeps absolute inputs absolute. -/
theorem isabs_normpath {p : String} (h : isabs p = true) : isabs (normpath p) = true := by
  unfold normpath
  rw [if_neg (ne_empty_of_isabs h)]
  simp only [h, if_true]
  apply isabs_ite_empty
  split
  · decide
  · decide

/-- `joinPath` of an absolute base and any second argument is absolute. -/
theorem isabs_joinPath {cwd : String} (p : String) (hcwd : isabs cwd = true) :
    isabs (joinPath cwd p) = true := by
  unfold joinPath
  by_cases hp : isabs p = true
  · rw [if_pos hp]; exact hp
  · rw [if_neg hp]
    by_cases hb : (cwd = "" || cwd.data.getLast? == some '/') = true
    · rw [if_pos hb]; exact isabs_append p hcwd
    · rw [if_neg hb]
      exact isabs_append p (isabs_append "/" hcwd)

/-- The resolved root is absolute whenever the working directory is. -/
theorem isabs_abspath {cwd : String} (p : String) (hcwd : isabs cwd = true) :
    isabs (abspath cwd p) = true := by
  unfold abspath
  by_cases hp : isabs p = true
  · rw [if_pos hp]; exact isabs_normpath hp
  · rw [if_neg hp]; exact isabs_normpath (isabs_joinPath p hcwd)

/-! ## The claims -/

/-- C1: For every directory tree and every configured extension set, the set
of paths emitted by `walk()` equals exactly the set of non-directory entries
whose lowercased name ends with some configured extension, excluding every
entry lying (directly or transitively) under a directory whose basename is
in the fixed ignore set; in particular a pruned subtree contributes zero
emissions even if it contains deeply nested matching files. -/
theorem walk_emits_exactly_spec_set (cwd root_dir : String)
    (extensions : Option (List String)) (tree : DirTree) :
    (FileWalker.init cwd root_dir extensions).walk tree =
      specEmittedSet (FileWalker.init cwd root_dir extensions).extensions ignoreDirsSet
        (FileWalker.init cwd root_dir extensions).root_dir tree :=
  walkTree_eq_specEmittedSet _ _ tree _

/-- C2: Filename matching is case-insensitive on the candidate filename's
suffix: every file whose lowercased name ends with a configured extension
matches, and in the `/tmp/proj` scenario with default extensions the emitted
set is exactly `{/tmp/proj/a.py, /tmp/proj/sub/b.PY}` (so `sub/b.PY` is
emitted). -/
theorem walk_matching_case_insensitive (exts : List String) (file ext : String)
    (hext : ext ∈ exts) (hsuf : pyEndsWith (pyLower file) ext = true) :
    matchesExtension exts file = true ∧
      (FileWalker.init "/" "/tmp/proj" none).walk
          (.node ["a.py"]
            [(".git", .node ["hook.py"] []), ("sub", .node ["b.PY", "c.txt"] [])]) =
        ["/tmp/proj/a.py", "/tmp/proj/sub/b.PY"] := by
  constructor
  · exact List.any_eq_true.mpr ⟨ext, hext, hsuf⟩
  · simp only [FileWalker.walk, FileWalker.init]
    simp +decide [walkTree_node]

/-- Witness for C2 at `FOO.PY` against the configured extension `.py`. -/
theorem walk_matching_case_insensitive_witness :
    matchesExtension [".py"] "FOO.PY" = true ∧
      (FileWalker.init "/" "/tmp/proj" none).walk
          (.node ["a.py"]
            [(".git", .node ["hook.py"] []), ("sub", .node ["b.PY", "c.txt"] [])]) =
        ["/tmp/proj/a.py", "/tmp/proj/sub/b.PY"] :=
  walk_matching_case_insensitive [".py"] "FOO.PY" ".py" (by decide) (by decide)

/-- C3: Pruning is decided by exact, case-sensitive basename match against
the fixed ignore set before descending: a subdirectory whose name is in the
set contributes nothing at all, while a directory differing only in case
(`.GIT`) is descended into and its matching files are emitted. -/
theorem pruning_exact_and_case_sensitive
    (exts : List String) (root name : String) (t : DirTree)
    (files : List String) (subdirs : List (String × DirTree))
    (hname : name ∈ ignoreDirsSet) :
    walkTree exts ignoreDirsSet root (.node files ((name, t) :: subdirs)) =
      walkTree exts ignoreDirsSet root (.node files subdirs) ∧
      (FileWalker.init "/" "/tmp/proj" none).walk
          (.node [] [(".GIT", .node ["hook.py"] [])]) =
        ["/tmp/proj/.GIT/hook.py"] := by
  constructor
  · rw [walkTree_node, walkTree_node]
    simp [List.filter_cons, hname]
  · simp only [FileWalker.walk, FileWalker.init]
    simp +decide [walkTree_node]

/-- Witness for C3: a `.git` subtree with a deeply matching file is dropped
whole. -/
theorem pruning_exact_and_case_sensitive_witness :
    (walkTree [".py"] ignoreDirsSet "/r" (.node [] [(".git", .node ["deep.py"] [])]) =
        walkTree [".py"] ignoreDirsSet "/r" (.node [] []) ∧
      (FileWalker.init "/" "/tmp/proj" none).walk
          (.node [] [(".GIT", .node ["hook.py"] [])]) =
        ["/tmp/proj/.GIT/hook.py"]) :=
  pruning_exact_and_case_sensitive [".py"] "/r" ".git" (.node ["deep.py"] []) [] []
    (by decide)

/-- C4: Absent or empty `extensions` defaults to `['.py']`, and a default
walker emits exactly the non-excluded entries whose lowercased name ends in
`.py`. -/
theorem default_extension_is_py (cwd root_dir : String) :
    (FileWalker.init cwd root_dir none).extensions = [".py"] ∧
      (FileWalker.init cwd root_dir (some [])).extensions = [".py"] ∧
      ∀ tree, (FileWalker.init cwd root_dir none).walk tree =
        specEmittedSet [".py"] ignoreDirsSet (abspath cwd root_dir) tree :=
  ⟨rfl, rfl, fun tree => walkTree_eq_specEmittedSet _ _ tree _⟩

/-- C5: Traversal is idempotent: walking the same unchanged tree again — the
filesystem being allowed to list siblings in any order — yields the same set
of emitted paths.  (`SameListing t t` always holds, so walking twice over one
unchanged listing is the special case `t₂ = t₁`.) -/
theorem walk_same_listing_same_set (fw : FileWalker) (t₁ t₂ : DirTree)
    (h : SameListing t₁ t₂) :
    (fw.walk t₁).toFinset = (fw.walk t₂).toFinset :=
  List.toFinset_eq_of_perm _ _
    (walkTree_perm_of_sameListing fw.extensions fw.ignore_dirs t₁ fw.root_dir t₂ h)

/-- Witness for C5: two listings of the same directory in different orders
produce the same emitted set. -/
theorem walk_same_listing_same_set_witness :
    ((FileWalker.init "/" "/p" none).walk (.node ["a.py", "b.py"] [])).toFinset =
      ((FileWalker.init "/" "/p" none).walk (.node ["b.py", "a.py"] [])).toFinset :=
  walk_same_listing_same_set _ _ _
    (.node (List.Perm.swap "b.py" "a.py" []) .nil (List.Perm.refl []))

/-- C6: Construction is a total pure function of the working directory,
root argument and extensions: it resolves `root_dir` through `abspath`
(absolute whenever the cwd is absolute), lowercases every provided
extension, and stores the fixed ignore set. -/
theorem init_never_fails_and_normalizes (cwd root_dir : String) (exts : List String) :
    (FileWalker.init cwd root_dir (some exts)).root_dir = abspath cwd root_dir ∧
      (FileWalker.init cwd root_dir (some exts)).ignore_dirs = ignoreDirsSet ∧
      (exts ≠ [] → (FileWalker.init cwd root_dir (some exts)).extensions = exts.map pyLower) ∧
      (isabs cwd = true → isabs (FileWalker.init cwd root_dir (some exts)).root_dir = true) := by
  refine ⟨rfl, rfl, fun hne => ?_, fun hcwd => isabs_abspath root_dir hcwd⟩
  cases exts with
  | nil => exact absurd rfl hne
  | cons e es => rfl

/-- Witness for C6 at a relative root and an upper-case extension. -/
theorem init_never_fails_and_normalizes_witness :
    (FileWalker.init "/home/u" "proj" (some [".PY"])).extensions = [".PY"].map pyLower ∧
      isabs (FileWalker.init "/home/u" "proj" (some [".PY"])).root_dir = true :=
  ⟨(init_never_fails_and_normalizes "/home/u" "proj" [".PY"]).2.2.1 (by decide),
    (init_never_fails_and_normalizes "/home/u" "proj" [".PY"]).2.2.2 (by decide)⟩

/-- C7: A walker over an empty root directory yields the empty sequence. -/
theorem walk_empty_root_is_empty (fw : FileWalker) :
    fw.walk (.node [] []) = [] := by
  unfold FileWalker.walk
  rw [walkTree_node]
  simp

/-- C8: The configuration is immutable across traversals: the `walk` method
never assigns a `self` attribute, so the state after any invocation equals
the state at construction and every later traversal observes it. -/
theorem walk_leaves_config_unchanged (fw : FileWalker) (tree : DirTree) :
    (fw.walkWithSelf tree).2.root_dir = fw.root_dir ∧
      (fw.walkWithSelf tree).2.extensions = fw.extensions ∧
      (fw.walkWithSelf tree).2.ignore_dirs = fw.ignore_dirs ∧
      ∀ t, ((fw.walkWithSelf tree).2.walkWithSelf t).1 = (fw.walkWithSelf t).1 :=
  ⟨rfl, rfl, rfl, fun _ => rfl⟩

/-- C9: The root itself is never pruned: even when the basename of the
resolved root is in the ignore set, its own matching files are emitted; the
ignore check applies only to subdirectories below the root. -/
theorem root_itself_never_pruned (cwd root_dir : String) (extensions : Option (List String))
    (files : List String) (subdirs : List (String × DirTree)) (f : String)
    (hroot : basename (FileWalker.init cwd root_dir extensions).root_dir ∈ ignoreDirsSet)
    (hf : f ∈ files)
    (hm : matchesExtension (FileWalker.init cwd root_dir extensions).extensions f = true) :
    joinPath (FileWalker.init cwd root_dir extensions).root_dir f ∈
      (FileWalker.init cwd root_dir extensions).walk (.node files subdirs) := by
  unfold FileWalker.walk
  rw [walkTree_node]
  apply List.mem_append_left
  exact List.mem_map_of_mem _ (List.mem_filter.mpr ⟨hf, hm⟩)

/-- Witness for C9: a root path ending in `build` is still scanned. -/
theorem root_itself_never_pruned_witness :
    "/tmp/build/a.py" ∈ (FileWalker.init "/" "/tmp/build" none).walk (.node ["a.py"] []) :=
  root_itself_never_pruned "/" "/tmp/build" none ["a.py"] [] "a.py"
    (by decide) (by decide) (by decide)

/-- C10: Extension matching is an unanchored suffix test with no validation:
a configured extension is stored as given (no leading-dot check), a filename
ending in the bare characters of the extension (`happy` vs `py`) is emitted,
and a file whose whole name equals the extension (`.py`) is emitted. -/
theorem suffix_match_unanchored_no_dot_validation :
    (FileWalker.init "/" "/p" (some ["py"])).extensions = ["py"] ∧
      (FileWalker.init "/" "/p" (some ["py"])).walk (.node ["happy"] []) = ["/p/happy"] ∧
      (FileWalker.init "/" "/p" (some [".py"])).walk (.node [".py"] []) = ["/p/.py"] := by
  refine ⟨by decide, ?_, ?_⟩
  · simp only [FileWalker.walk, FileWalker.init]
    simp +decide [walkTree_node]
  · simp only [FileWalker.walk, FileWalker.init]
    simp +decide [walkTree_node]

end FileWalkerSpec
